import Mathlib

/-
  Verification of the KMC social-network simulator core (hashkat, early version).

  Shallow embedding of:
  * the categorical rate tree (cat_nodes.h: LeafNode / TreeNode, recursively
    nested through a Classifier collaborator),
  * the lazy tweet-aging checker (tweets.cpp: TimeDepRateTree::ElementChecker::check),
  * the analyzer actions (analyzer_main.cpp: handle_follow, action_follow_entity,
    action_followback, action_retweet, step_analysis, run_network_simulation).

  Machine integers are modelled as Nat/Int; C++ doubles carrying rates and times
  are modelled as exact rationals.
-/

namespace cats

/-- Embedding of the nested category tree from cat_nodes.h.  A leaf stores a
cached total rate together with the hash-set of member ids (LeafNode); an
internal node stores a cached total rate, the n_elems counter and the vector
of child subtrees (TreeNode). -/
inductive CatTree where
  | leaf (total_rate : ℚ) (elems : Finset ℤ)
  | node (total_rate : ℚ) (n_elems : ℤ) (cats : List CatTree)

/-- The ClassifierT collaborator of cat_nodes.h: at an inner level it supplies
the bin of an element (classify) and the per-bin sub-classifier (get); at the
last level it supplies the per-member rate of the leaf. -/
inductive Classifier where
  | leafC (rate : ℚ)
  | nodeC (classify : ℤ → ℕ) (get : ℕ → Classifier)

/-- The default-constructed SubCat supplied by vector resize in ensure_bin:
an empty leaf or an empty internal node, according to the level's type. -/
def emptyOf : Classifier → CatTree
  | .leafC _ => .leaf 0 ∅
  | .nodeC _ _ => .node 0 0 []

/-- Out-of-range placeholder for list indexing (never hit at in-range indices). -/
def dflt : CatTree := .node 0 0 []

/-- get_total_rate of either node kind. -/
def getTotal : CatTree → ℚ
  | .leaf r _ => r
  | .node r _ _ => r

/-- size() of either node kind: hash-set size at a leaf, the n_elems counter
at an internal node. -/
def getN : CatTree → ℤ
  | .leaf _ es => (es.card : ℤ)
  | .node _ n _ => n

/-- Embedding of recalc_rates from cat_nodes.h: the ground-truth total
recomputed bottom-up, rate times set size at a leaf and the sum over the
children at an internal node. -/
def recalc_rates : Classifier → CatTree → ℚ
  | .leafC rate, .leaf _ elems => rate * (elems.card : ℚ)
  | .leafC _, .node _ _ _ => 0
  | .nodeC _ ch, .node _ _ cs =>
      ∑ i ∈ Finset.range cs.length, recalc_rates (ch i) (cs.getD i dflt)
  | .nodeC _ _, .leaf _ _ => 0

/-- The recomputed sum of the subtree totals of a list of sibling children,
as accumulated by the loop in TreeNode::recalc_rates. -/
def childRecalcSum (ch : ℕ → Classifier) (cs : List CatTree) : ℚ :=
  ∑ i ∈ Finset.range cs.length, recalc_rates (ch i) (cs.getD i dflt)

/-- The cached-totals invariant: the stored total_rate of every node of the
tree equals the recomputed total of its subtree (and the tree's shape matches
the classifier's). -/
inductive Inv : Classifier → CatTree → Prop where
  | leaf (rate tot : ℚ) (elems : Finset ℤ) :
      tot = rate * (elems.card : ℚ) → Inv (.leafC rate) (.leaf tot elems)
  | node (cls : ℤ → ℕ) (ch : ℕ → Classifier) (tot : ℚ) (n : ℤ) (cs : List CatTree) :
      tot = childRecalcSum ch cs →
      (∀ i, i < cs.length → Inv (ch i) (cs.getD i dflt)) →
      Inv (.nodeC cls ch) (.node tot n cs)

/-- ensure_bin from cat_nodes.h: grow the child vector to bin + 1 entries if
needed, default-constructing the new entries. -/
def ensure_bin (ch : ℕ → Classifier) (bin : ℕ) (cs : List CatTree) : List CatTree :=
  if bin < cs.length then cs
  else cs ++ (List.range (bin + 1 - cs.length)).map (fun j => emptyOf (ch (cs.length + j)))

/-- TreeNode::add / LeafNode::add from cat_nodes.h.  Classify the element,
ensure its bin exists, insert recursively; on a unique insertion bump n_elems
and propagate the rate delta into the cached total, returning (new tree,
was-inserted, delta).  On failure the (possibly resized) tree is kept and the
delta output stays 0. -/
def addAux : Classifier → CatTree → ℤ → CatTree × Bool × ℚ
  | .leafC rate, .leaf tot elems, e =>
      if e ∈ elems then (.leaf tot elems, false, 0)
      else (.leaf (tot + rate) (insert e elems), true, rate)
  | .leafC _, .node tot n cs, _ => (.node tot n cs, false, 0)
  | .nodeC classify ch, .node tot n cs, e =>
      let bin := classify e
      let cs2 := ensure_bin ch bin cs
      let r := addAux (ch bin) (cs2.getD bin dflt) e
      if r.2.1 then (.node (tot + r.2.2) (n + 1) (cs2.set bin r.1), true, r.2.2)
      else (.node tot n (cs2.set bin r.1), false, 0)
  | .nodeC _ _, .leaf tot elems, _ => (.leaf tot elems, false, 0)

/-- TreeNode::remove / LeafNode::remove from cat_nodes.h, symmetric to add:
on a successful erase decrement n_elems and propagate the negative delta. -/
def removeAux : Classifier → CatTree → ℤ → CatTree × Bool × ℚ
  | .leafC rate, .leaf tot elems, e =>
      if e ∈ elems then (.leaf (tot - rate) (elems.erase e), true, -rate)
      else (.leaf tot elems, false, 0)
  | .leafC _, .node tot n cs, _ => (.node tot n cs, false, 0)
  | .nodeC classify ch, .node tot n cs, e =>
      let bin := classify e
      let cs2 := ensure_bin ch bin cs
      let r := removeAux (ch bin) (cs2.getD bin dflt) e
      if r.2.1 then (.node (tot + r.2.2) (n - 1) (cs2.set bin r.1), true, r.2.2)
      else (.node tot n (cs2.set bin r.1), false, 0)
  | .nodeC _ _, .leaf tot elems, _ => (.leaf tot elems, false, 0)

/-- Membership of an element in the leaf its classification chooses
(the bin that add and remove would act on). -/
def memClassified : Classifier → CatTree → ℤ → Bool
  | .leafC _, .leaf _ elems, e => decide (e ∈ elems)
  | .leafC _, .node _ _ _, _ => false
  | .nodeC classify ch, .node _ _ cs, e =>
      memClassified (ch (classify e)) (cs.getD (classify e) dflt) e
  | .nodeC _ _, .leaf _ _, _ => false

mutual

/-- The multiset of all members stored in the leaves of a tree. -/
def membersOf : CatTree → Multiset ℤ
  | .leaf _ elems => elems.val
  | .node _ _ cs => membersList cs

/-- The multiset of all members stored under a list of sibling subtrees. -/
def membersList : List CatTree → Multiset ℤ
  | [] => 0
  | c :: rest => membersOf c + membersList rest

end

/-- The local shape of invariant I1, stated without reference to a
classifier: every internal node's cached total equals the sum of its
children's cached totals. -/
inductive childSumOk : CatTree → Prop where
  | leaf (tot : ℚ) (elems : Finset ℤ) : childSumOk (.leaf tot elems)
  | node (tot : ℚ) (n : ℤ) (cs : List CatTree) :
      tot = (cs.map getTotal).sum →
      (∀ c ∈ cs, childSumOk c) →
      childSumOk (.node tot n cs)

/-- A single mutation of the tree, as performed by the analyzer. -/
inductive TreeOp where
  | add (e : ℤ)
  | remove (e : ℤ)

/-- Apply one add or remove operation, keeping the resulting tree. -/
def applyOp (C : Classifier) (t : CatTree) : TreeOp → CatTree
  | .add e => (addAux C t e).1
  | .remove e => (removeAux C t e).1

/-- Apply a sequence of add and remove operations. -/
def applyOps (C : Classifier) (ops : List TreeOp) (t : CatTree) : CatTree :=
  ops.foldl (applyOp C) t

/-- Loop body of TreeNode::random_weighted_bin: walk the children subtracting
each child's cached total from the running draw, stopping at the first child
that makes it nonpositive; when the loop runs off the end, fall back to the
value for the last bin. -/
def random_weighted_bin_go (num : ℚ) (rates : List ℚ) (i fallback : ℕ) : ℕ :=
  match rates with
  | [] => fallback
  | r :: rest =>
      if num - r ≤ 0 then i else random_weighted_bin_go (num - r) rest (i + 1) fallback

/-- TreeNode::random_weighted_bin from cat_nodes.h, determinized on the draw
num = rng.genrand_real2() * total_rate, over the list of the children's
cached total rates.  Past the loop the code asserts the node is non-empty and
returns the last bin (the floating-point fallback). -/
def random_weighted_bin (num : ℚ) (rates : List ℚ) : ℕ :=
  random_weighted_bin_go num rates 0 (rates.length - 1)

/-- Loop of TreeNode::random_uniform_bin from cat_nodes.h, determinized on
the draw num = rng.rand_int(size()).  Note the loop body subtracts
cats.size() — the number of bins — at every step, never consulting the
children's member counts; running off the end is the failed assertion,
modelled as none.  rem counts the iterations left (n_bins - i). -/
def random_uniform_bin_go (n_bins : ℕ) : ℤ → ℕ → ℕ → Option ℕ
  | _, _, 0 => none
  | num, i, rem + 1 =>
      if num - (n_bins : ℤ) ≤ 0 then some i
      else random_uniform_bin_go n_bins (num - (n_bins : ℤ)) (i + 1) rem

/-- TreeNode::random_uniform_bin: num is the uniform draw from the node's
n_elems member count, n_bins the number of children. -/
def random_uniform_bin (num : ℤ) (n_bins : ℕ) : Option ℕ :=
  random_uniform_bin_go n_bins num 0 n_bins

/-- A concrete two-level classifier for witnesses: elements are binned by
parity, every leaf carries per-member rate 1. -/
def Cex : Classifier := .nodeC (fun e => (e % 2).toNat) (fun _ => .leafC 1)

/-- A concrete empty root for witnesses. -/
def tex : CatTree := .node 0 0 []

/-- A concrete one-bin tree holding the single element 0 at rate 1. -/
def tpresent : CatTree := .node 1 1 [.leaf 1 {0}]

end cats

/-! Embedding of the time-dependent tweet-reaction engine (tweets.cpp). -/

namespace tweets

/-- The per-tweet aging state read and written by the checker: creation time,
current age-bin index and the simulated time at which the next rebin is due. -/
structure Tweet where
  creation_time : ℚ
  retweet_time_bin : ℕ
  retweet_next_rebin_time : ℚ
deriving DecidableEq

/-- What the checker did to the candidate tweet inside the rate tree:
nothing (accepted), removal from the bank, or migration to the next bin with
a replace_rate carrying the recomputed rate. -/
inductive CheckEffect where
  | keep
  | removed
  | rebinned (t : Tweet) (new_rate : ℚ)
deriving DecidableEq

/-- TimeDepRateTree::ElementChecker::check from tweets.cpp, determinized over
the checker's simulated time, the configured bin count n_bins, the bin
thresholds (get_cat_threshold) and the recomputed per-bin reaction rate
(TweetRateDeterminer::get_rate, collapsed to its scalar).  Returns the bool the
sampler sees, paired with the mutation performed on the tweet bank. -/
def ElementChecker_check (time : ℚ) (n_bins : ℕ) (get_cat_threshold : ℕ → ℚ)
    (get_rate : ℕ → ℚ) (t : Tweet) : Bool × CheckEffect :=
  if time > t.retweet_next_rebin_time then
    let bin := t.retweet_time_bin + 1
    if bin ≥ n_bins then (false, .removed)
    else
      (false, .rebinned
        { creation_time := t.creation_time
          retweet_time_bin := bin
          retweet_next_rebin_time := t.creation_time + get_cat_threshold bin }
        (get_rate bin))
  else (true, .keep)

end tweets

/-! Embedding of the analyzer actions (analyzer_main.cpp). -/

namespace analyzer

/-- A preallocated follow or follower list (MemPoolVector grown through
MemPoolVectorGrower).  Modelled from the spec: the spec's follow operation
rejects duplicate follows and treats capacity exhaustion of the preallocated
buffer as a failed insertion, so add_if_possible refuses an element already
present or an insertion past the capacity; the source of MemPoolVector.h is
not part of this snapshot. -/
structure MPVec where
  elems : List ℕ
  capacity : ℕ
deriving DecidableEq

/-- Modelled from the spec: MemPoolVectorGrower::add_if_possible appends the
element when it is new and buffer room remains, reporting success; otherwise
it leaves the list untouched and reports failure. -/
def add_if_possible (v : MPVec) (x : ℕ) : MPVec × Bool :=
  if x ∈ v.elems then (v, false)
  else if v.elems.length < v.capacity then ({ v with elems := v.elems ++ [x] }, true)
  else (v, false)

/-- One entry of the recent-retweet ring buffer: the original tweeter and the
time of the retweet (the two Retweet constructor arguments used by the
analyzer). -/
structure Retweet where
  original_tweeter : ℤ
  time : ℚ
deriving DecidableEq

/-- Modelled from the spec: Retweets::check_recent yields the most recent
entry of the ring buffer when one exists (the buffer is kept most recent
first); its source (tweets.h) is not part of this snapshot. -/
def check_recent (buf : List Retweet) : Option Retweet := buf.head?

/-- The per-agent state touched by the embedded actions: the follow and
follower lists, the ring buffer and the retweet counter. -/
structure Entity where
  follow_set : MPVec
  follower_set : MPVec
  retweets : List Retweet
  n_retweets : ℕ
deriving DecidableEq

/-- Analyzer state: the network (agents indexed by id) plus the statistics
counters and the simulated clock used by the claims. -/
structure AState where
  agents : ℕ → Entity
  n_follows : ℕ
  n_retweets : ℕ
  n_steps : ℕ
  time : ℚ

/-- Replace one agent record. -/
def updAgent (st : AState) (i : ℕ) (a : Entity) : AState :=
  { st with agents := Function.update st.agents i a }

/-- Analyzer::handle_follow from analyzer_main.cpp.  Inserts target into the
actor's follow list; if that succeeded it inserts the actor into the target's
follower list but discards that second result, returning true regardless. -/
def handle_follow (st : AState) (actor target : ℕ) : AState × Bool :=
  let A := st.agents actor
  let r1 := add_if_possible A.follow_set target
  let st1 := updAgent st actor { A with follow_set := r1.1 }
  if r1.2 then
    let T := st1.agents target
    let r2 := add_if_possible T.follower_set actor
    (updAgent st1 target { T with follower_set := r2.1 }, true)
  else (st1, false)

/-- Tail of Analyzer::action_follow_entity (the accept/reject handling after
the follow model has selected a target): a selection equal to the actor or to
the no-selection marker -1 falls through silently; otherwise handle_follow is
attempted and n_follows is incremented on success.  The selected target stands
for the outcome of the model-specific rng draws; the follow_ranks
recategorization, which touches no state appearing in the claims, is elided. -/
def action_follow_entity (st : AState) (entity : ℕ) (entity_to_follow : ℤ) : AState :=
  if (entity : ℤ) ≠ entity_to_follow ∧ entity_to_follow ≠ -1 then
    let r := handle_follow st entity entity_to_follow.toNat
    if r.2 then { r.1 with n_follows := r.1.n_follows + 1 } else r.1
  else st

/-- Analyzer::action_followback from analyzer_main.cpp: the followee follows
the follower back through handle_follow, incrementing n_follows on success.
Defined in the source but never invoked by any step. -/
def action_followback (st : AState) (follower followee : ℕ) : AState :=
  let r := handle_follow st followee follower
  if r.2 then { r.1 with n_follows := r.1.n_follows + 1 } else r.1

/-- Push one ring-buffer record to every listed agent (the loop over the
audience in Analyzer::action_retweet). -/
def push_to_audience (rt : Retweet) (st : AState) (ids : List ℕ) : AState :=
  ids.foldl (fun s i => updAgent s i { s.agents i with retweets := rt :: (s.agents i).retweets }) st

/-- Analyzer::action_retweet from analyzer_main.cpp, determinized on the two
rng draws: branch_lt_half is the rand_num < 0.5 test and idx the uniform index
into the reactor's follow list.  When a source tweeter was found, the audience
receiving the ring-buffer record Retweet(entity_retweeted, time_of_retweet) is
network.follow_i(entity, 0..n_following-1), i.e. the reactor's follow list
(the agents the reactor follows), after which both retweet counters are
incremented. -/
def action_retweet (st : AState) (entity : ℕ) (time_of_retweet : ℚ)
    (branch_lt_half : Bool) (idx : ℕ) : AState :=
  let retweetee := st.agents entity
  let f := retweetee.follow_set
  let entity_retweeted : ℤ :=
    if branch_lt_half then
      if f.elems.length ≠ 0 then (f.elems.getD idx 0 : ℤ) else -1
    else
      match check_recent retweetee.retweets with
      | some rt => if time_of_retweet - rt.time < 2880 then rt.original_tweeter else -1
      | none => -1
  if entity_retweeted ≠ -1 then
    let st1 := push_to_audience ⟨entity_retweeted, time_of_retweet⟩ st
      (st.agents entity).follow_set.elems
    let st2 := updAgent st1 entity
      { st1.agents entity with n_retweets := (st1.agents entity).n_retweets + 1 }
    { st2 with n_retweets := st2.n_retweets + 1 }
  else st

/-- One follow step of Analyzer::step_analysis: the follow action followed by
step_time (the clock advance dt stands for the drawn increment) and the
n_steps bump. -/
def follow_step (st : AState) (entity : ℕ) (entity_to_follow : ℤ) (dt : ℚ) : AState :=
  let st1 := action_follow_entity st entity entity_to_follow
  { st1 with time := st1.time + dt, n_steps := st1.n_steps + 1 }

/-- An empty agent with room in both lists. -/
def freshEntity : Entity :=
  { follow_set := ⟨[], 10⟩, follower_set := ⟨[], 10⟩, retweets := [], n_retweets := 0 }

/-- An agent whose preallocated follower buffer is exhausted. -/
def fullFollowerEntity : Entity :=
  { follow_set := ⟨[], 10⟩, follower_set := ⟨[], 0⟩, retweets := [], n_retweets := 0 }

/-- Two-agent network in which agent 1 cannot accept another follower record. -/
def stCap : AState :=
  { agents := fun i => if i = 1 then fullFollowerEntity else freshEntity
    n_follows := 0, n_retweets := 0, n_steps := 0, time := 0 }

/-- Two-agent network of fresh agents (the forced-followback scenario). -/
def stAB : AState :=
  { agents := fun _ => freshEntity
    n_follows := 0, n_retweets := 0, n_steps := 0, time := 0 }

/-- Reactor agent for the retweet scenario: agent 0 follows agent 1 and is
followed by agent 2. -/
def reactorEntity : Entity :=
  { follow_set := ⟨[1], 10⟩, follower_set := ⟨[2], 10⟩, retweets := [], n_retweets := 0 }

/-- Three-agent network for the retweet scenario. -/
def stRT : AState :=
  { agents := fun i => if i = 0 then reactorEntity else freshEntity
    n_follows := 0, n_retweets := 0, n_steps := 0, time := 0 }

end analyzer

/-! Embedding of the main loop (Analyzer::run_network_simulation). -/

namespace kmcloop

/-- The loop-visible simulation state: the simulated clock, the agent count,
the polled SIGINT counter and the step counter. -/
structure SimState where
  time : ℚ
  n_entities : ℕ
  ctrl_c_attempts : ℕ
  n_steps : ℕ
deriving DecidableEq

/-- The while-condition of Analyzer::run_network_simulation: continue while
time < max_time and n_entities < max_entities and no Ctrl-C was seen. -/
def run_guard (max_time : ℚ) (max_entities : ℕ) (s : SimState) : Bool :=
  decide (s.time < max_time) && decide (s.n_entities < max_entities)
    && decide (s.ctrl_c_attempts = 0)

/-- Analyzer::run_network_simulation: iterate step_analysis while the guard
holds.  The step body is a parameter (step_analysis dispatches on rng draws);
fuel bounds the unrolling. -/
def run_network_simulation (max_time : ℚ) (max_entities : ℕ)
    (step : SimState → SimState) : ℕ → SimState → SimState
  | 0, s => s
  | fuel + 1, s =>
      if run_guard max_time max_entities s then
        run_network_simulation max_time max_entities step fuel (step s)
      else s

/-- A nontrivial step body: advances the clock and the step counter (what any
real step does via step_time and n_steps++). -/
def demo_step (s : SimState) : SimState :=
  { s with time := s.time + 1, n_steps := s.n_steps + 1 }

end kmcloop

/-! Supporting lemmas about the rate-tree embedding. -/

namespace cats

theorem getD_set_self {α : Type} (l : List α) (i : ℕ) (v d : α) (h : i < l.length) :
    (l.set i v).getD i d = v := by
  rw [List.getD_eq_getElem _ _ (by simpa using h)]
  exact List.getElem_set_self (by simpa using h)

theorem getD_set_ne {α : Type} (l : List α) {i j : ℕ} (v d : α) (h : i ≠ j) :
    (l.set i v).getD j d = l.getD j d := by
  rcases Nat.lt_or_ge j l.length with hj | hj
  · rw [List.getD_eq_getElem _ _ (by simpa using hj), List.getD_eq_getElem _ _ hj]
    exact List.getElem_set_ne h (by simpa using hj)
  · rw [List.getD_eq_default _ _ (by simpa using hj), List.getD_eq_default _ _ hj]

theorem list_map_sum_eq_range {α β : Type} [AddCommMonoid β] (f : α → β) (d : α) :
    ∀ l : List α, (l.map f).sum = ∑ i ∈ Finset.range l.length, f (l.getD i d)
  | [] => by simp
  | c :: rest => by
    simp only [List.map_cons, List.sum_cons, List.length_cons, Finset.sum_range_succ']
    rw [list_map_sum_eq_range f d rest]
    simp [add_comm]

theorem recalc_emptyOf (C : Classifier) : recalc_rates C (emptyOf C) = 0 := by
  cases C <;> simp [recalc_rates, emptyOf]

theorem Inv_emptyOf (C : Classifier) : Inv C (emptyOf C) := by
  cases C with
  | leafC rate => exact Inv.leaf rate 0 ∅ (by simp)
  | nodeC cls ch =>
      refine Inv.node cls ch 0 0 [] (by simp [childRecalcSum]) ?_
      intro i hi
      simp at hi

theorem memClassified_dflt (C : Classifier) (e : ℤ) : memClassified C dflt e = false := by
  induction C with
  | leafC rate => simp [memClassified, dflt]
  | nodeC cls ch ih => simpa [memClassified, dflt] using ih (cls e)

theorem memClassified_emptyOf (C : Classifier) (e : ℤ) :
    memClassified C (emptyOf C) e = false := by
  cases C with
  | leafC rate => simp [memClassified, emptyOf]
  | nodeC cls ch => simpa [memClassified, emptyOf] using memClassified_dflt (ch (cls e)) e

theorem length_ensure_bin (ch : ℕ → Classifier) (bin : ℕ) (cs : List CatTree) :
    (ensure_bin ch bin cs).length = max (bin + 1) cs.length := by
  unfold ensure_bin
  split
  · omega
  · simp only [List.length_append, List.length_map, List.length_range]
    omega

theorem lt_length_ensure_bin (ch : ℕ → Classifier) (bin : ℕ) (cs : List CatTree) :
    bin < (ensure_bin ch bin cs).length := by
  rw [length_ensure_bin]; omega

theorem getD_ensure_bin_lt (ch : ℕ → Classifier) (bin : ℕ) (cs : List CatTree)
    {i : ℕ} (h : i < cs.length) :
    (ensure_bin ch bin cs).getD i dflt = cs.getD i dflt := by
  unfold ensure_bin
  split
  · rfl
  · exact List.getD_append _ _ _ _ h

theorem getD_ensure_bin_ge (ch : ℕ → Classifier) (bin : ℕ) (cs : List CatTree)
    {i : ℕ} (h1 : cs.length ≤ i) (h2 : i ≤ bin) :
    (ensure_bin ch bin cs).getD i dflt = emptyOf (ch i) := by
  unfold ensure_bin
  split
  · omega
  · rw [List.getD_append_right _ _ _ _ h1]
    have hlt : i - cs.length < ((List.range (bin + 1 - cs.length)).map
        (fun j => emptyOf (ch (cs.length + j)))).length := by
      rw [List.length_map, List.length_range]
      omega
    rw [List.getD_eq_getElem _ _ hlt]
    simp only [List.getElem_map, List.getElem_range]
    have hadd : cs.length + (i - cs.length) = i := by omega
    rw [hadd]

theorem childRecalcSum_ensure_bin (ch : ℕ → Classifier) (bin : ℕ) (cs : List CatTree) :
    childRecalcSum ch (ensure_bin ch bin cs) = childRecalcSum ch cs := by
  by_cases hb : bin < cs.length
  · simp [ensure_bin, hb]
  · unfold childRecalcSum
    rw [length_ensure_bin]
    have hmax : max (bin + 1) cs.length = bin + 1 := by omega
    rw [hmax]
    rw [← Finset.sum_subset (Finset.range_subset.mpr (by omega : cs.length ≤ bin + 1))]
    · exact Finset.sum_congr rfl fun i hi => by
        rw [getD_ensure_bin_lt ch bin cs (Finset.mem_range.mp hi)]
    · intro x hx hnx
      have hx1 : x ≤ bin := by
        have := Finset.mem_range.mp hx; omega
      have hx2 : cs.length ≤ x := by
        by_contra hcon
        exact hnx (Finset.mem_range.mpr (by omega))
      rw [getD_ensure_bin_ge ch bin cs hx2 hx1, recalc_emptyOf]

theorem childRecalcSum_set (ch : ℕ → Classifier) (cs : List CatTree) (bin : ℕ)
    (v : CatTree) (h : bin < cs.length) :
    childRecalcSum ch (cs.set bin v) =
      childRecalcSum ch cs - recalc_rates (ch bin) (cs.getD bin dflt)
        + recalc_rates (ch bin) v := by
  unfold childRecalcSum
  rw [List.length_set]
  have hbin : bin ∈ Finset.range cs.length := Finset.mem_range.mpr h
  rw [← Finset.add_sum_erase _ (fun i => recalc_rates (ch i) ((cs.set bin v).getD i dflt)) hbin,
      ← Finset.add_sum_erase _ (fun i => recalc_rates (ch i) (cs.getD i dflt)) hbin]
  have hmid : (∑ x ∈ (Finset.range cs.length).erase bin,
      recalc_rates (ch x) ((cs.set bin v).getD x dflt)) =
      ∑ x ∈ (Finset.range cs.length).erase bin,
      recalc_rates (ch x) (cs.getD x dflt) := by
    refine Finset.sum_congr rfl fun x hx => ?_
    rw [getD_set_ne cs v dflt (Ne.symm (Finset.ne_of_mem_erase hx))]
  rw [hmid, getD_set_self cs bin v dflt h]
  ring

theorem inv_children_ensure_bin (ch : ℕ → Classifier) (bin : ℕ) (cs : List CatTree)
    (h : ∀ i, i < cs.length → Inv (ch i) (cs.getD i dflt)) :
    ∀ i, i < (ensure_bin ch bin cs).length →
      Inv (ch i) ((ensure_bin ch bin cs).getD i dflt) := by
  intro i hi
  rw [length_ensure_bin] at hi
  by_cases hic : i < cs.length
  · rw [getD_ensure_bin_lt ch bin cs hic]
    exact h i hic
  · have h1 : cs.length ≤ i := by omega
    have h2 : i ≤ bin := by omega
    rw [getD_ensure_bin_ge ch bin cs h1 h2]
    exact Inv_emptyOf (ch i)

theorem inv_children_set (ch : ℕ → Classifier) (cs : List CatTree) (bin : ℕ)
    (v : CatTree) (hb : bin < cs.length)
    (h : ∀ i, i < cs.length → Inv (ch i) (cs.getD i dflt)) (hv : Inv (ch bin) v) :
    ∀ i, i < (cs.set bin v).length → Inv (ch i) ((cs.set bin v).getD i dflt) := by
  intro i hi
  rw [List.length_set] at hi
  by_cases hib : bin = i
  · subst hib
    rw [getD_set_self cs bin v dflt hb]
    exact hv
  · rw [getD_set_ne cs v dflt hib]
    exact h i hi

theorem membersOf_emptyOf (C : Classifier) : membersOf (emptyOf C) = 0 := by
  cases C <;> simp [membersOf, emptyOf, membersList]

theorem membersList_append (l1 l2 : List CatTree) :
    membersList (l1 ++ l2) = membersList l1 + membersList l2 := by
  induction l1 with
  | nil => simp [membersList]
  | cons c rest ih => simp [membersList, ih, add_assoc]

theorem membersList_eq_zero (l : List CatTree) (h : ∀ c ∈ l, membersOf c = 0) :
    membersList l = 0 := by
  induction l with
  | nil => simp [membersList]
  | cons c rest ih =>
      simp only [membersList]
      rw [h c (by simp), ih fun x hx => h x (by simp [hx])]
      simp

theorem membersList_ensure_bin (ch : ℕ → Classifier) (bin : ℕ) (cs : List CatTree) :
    membersList (ensure_bin ch bin cs) = membersList cs := by
  unfold ensure_bin
  split
  · rfl
  · rw [membersList_append]
    have hz : membersList ((List.range (bin + 1 - cs.length)).map
        (fun j => emptyOf (ch (cs.length + j)))) = 0 := by
      refine membersList_eq_zero _ fun c hc => ?_
      obtain ⟨j, _, rfl⟩ := List.mem_map.mp hc
      exact membersOf_emptyOf _
    rw [hz, add_zero]

theorem membersList_set (cs : List CatTree) :
    ∀ (bin : ℕ) (v : CatTree), bin < cs.length →
    membersList (cs.set bin v) + membersOf (cs.getD bin dflt)
      = membersList cs + membersOf v := by
  induction cs with
  | nil => intro bin v h; simp at h
  | cons c rest ih =>
      intro bin v h
      cases bin with
      | zero =>
          simp only [List.set, membersList, List.getD_cons_zero]
          abel
      | succ b =>
          simp only [List.set, membersList, List.getD_cons_succ]
          rw [add_assoc, ih b v (by simpa using h), add_assoc]

end cats

namespace cats

theorem recalc_node_eq (cls : ℤ → ℕ) (ch : ℕ → Classifier) (tot : ℚ) (n : ℤ)
    (cs : List CatTree) :
    recalc_rates (.nodeC cls ch) (.node tot n cs) = childRecalcSum ch cs := rfl

theorem node_set_inv (cls : ℤ → ℕ) (ch : ℕ → Classifier) (tot : ℚ) (m : ℤ)
    (cs : List CatTree) (bin : ℕ) (v : CatTree) (d : ℚ)
    (htot : tot = childRecalcSum ch cs)
    (hch : ∀ i, i < cs.length → Inv (ch i) (cs.getD i dflt))
    (hv : Inv (ch bin) v)
    (hd : recalc_rates (ch bin) v
        = recalc_rates (ch bin) ((ensure_bin ch bin cs).getD bin dflt) + d) :
    Inv (.nodeC cls ch) (.node (tot + d) m ((ensure_bin ch bin cs).set bin v)) ∧
    childRecalcSum ch ((ensure_bin ch bin cs).set bin v) = childRecalcSum ch cs + d := by
  have hblen := lt_length_ensure_bin ch bin cs
  have hch2 := inv_children_ensure_bin ch bin cs hch
  have hsum : childRecalcSum ch ((ensure_bin ch bin cs).set bin v)
      = childRecalcSum ch cs + d := by
    rw [childRecalcSum_set ch (ensure_bin ch bin cs) bin v hblen,
        childRecalcSum_ensure_bin ch bin cs, hd]
    ring
  refine ⟨Inv.node cls ch _ m _ (by rw [hsum, htot]) ?_, hsum⟩
  exact inv_children_set ch (ensure_bin ch bin cs) bin v hblen hch2 hv

theorem addAux_inv (C : Classifier) : ∀ (t : CatTree) (e : ℤ), Inv C t →
    Inv C (addAux C t e).1 ∧
    recalc_rates C (addAux C t e).1 = recalc_rates C t + (addAux C t e).2.2 ∧
    ((addAux C t e).2.1 = false → (addAux C t e).2.2 = 0) := by
  induction C with
  | leafC rate =>
      intro t e h
      cases h with
      | leaf rate tot elems hleaf =>
          by_cases he : e ∈ elems
          · simp only [addAux, if_pos he]
            exact ⟨Inv.leaf _ _ _ hleaf, by simp, by simp⟩
          · simp only [addAux, if_neg he]
            refine ⟨Inv.leaf _ _ _ ?_, ?_, ?_⟩
            · rw [Finset.card_insert_of_not_mem he]
              push_cast
              rw [hleaf]; ring
            · simp only [recalc_rates]
              rw [Finset.card_insert_of_not_mem he]
              push_cast
              ring
            · intro hco; simp at hco
  | nodeC cls ch ih =>
      intro t e h
      cases h with
      | node cls ch tot n cs htot hch =>
          obtain ⟨ih1, ih2, ih3⟩ :=
            ih (cls e) ((ensure_bin ch (cls e) cs).getD (cls e) dflt) e
              (inv_children_ensure_bin ch (cls e) cs hch (cls e)
                (lt_length_ensure_bin ch (cls e) cs))
          by_cases hr : (addAux (ch (cls e)) ((ensure_bin ch (cls e) cs).getD (cls e) dflt) e).2.1
          · have hstep := node_set_inv cls ch tot (n + 1) cs (cls e)
              (addAux (ch (cls e)) ((ensure_bin ch (cls e) cs).getD (cls e) dflt) e).1
              (addAux (ch (cls e)) ((ensure_bin ch (cls e) cs).getD (cls e) dflt) e).2.2
              htot hch ih1 ih2
            simp only [addAux, hr, if_true]
            exact ⟨hstep.1, by rw [recalc_node_eq, recalc_node_eq, hstep.2],
              fun hco => by simp at hco⟩
          · have hz : (addAux (ch (cls e)) ((ensure_bin ch (cls e) cs).getD (cls e) dflt) e).2.2 = 0 :=
              ih3 (by simpa using hr)
            have hd0 : recalc_rates (ch (cls e))
                (addAux (ch (cls e)) ((ensure_bin ch (cls e) cs).getD (cls e) dflt) e).1
                = recalc_rates (ch (cls e)) ((ensure_bin ch (cls e) cs).getD (cls e) dflt) + 0 := by
              rw [ih2, hz]
            have hstep := node_set_inv cls ch tot n cs (cls e)
              (addAux (ch (cls e)) ((ensure_bin ch (cls e) cs).getD (cls e) dflt) e).1
              0 htot hch ih1 hd0
            simp only [addAux, hr, if_false, Bool.false_eq_true]
            refine ⟨by simpa using hstep.1, ?_, by simp⟩
            rw [recalc_node_eq, recalc_node_eq, hstep.2]

theorem removeAux_inv (C : Classifier) : ∀ (t : CatTree) (e : ℤ), Inv C t →
    Inv C (removeAux C t e).1 ∧
    recalc_rates C (removeAux C t e).1 = recalc_rates C t + (removeAux C t e).2.2 ∧
    ((removeAux C t e).2.1 = false → (removeAux C t e).2.2 = 0) := by
  induction C with
  | leafC rate =>
      intro t e h
      cases h with
      | leaf rate tot elems hleaf =>
          by_cases he : e ∈ elems
          · simp only [removeAux, if_pos he]
            have hcard : 1 ≤ elems.card := Finset.one_le_card.mpr ⟨e, he⟩
            refine ⟨Inv.leaf _ _ _ ?_, ?_, ?_⟩
            · rw [Finset.card_erase_of_mem he, Nat.cast_sub hcard]
              push_cast
              rw [hleaf]; ring
            · simp only [recalc_rates]
              rw [Finset.card_erase_of_mem he, Nat.cast_sub hcard]
              push_cast
              ring
            · intro hco; simp at hco
          · simp only [removeAux, if_neg he]
            exact ⟨Inv.leaf _ _ _ hleaf, by simp, by simp⟩
  | nodeC cls ch ih =>
      intro t e h
      cases h with
      | node cls ch tot n cs htot hch =>
          obtain ⟨ih1, ih2, ih3⟩ :=
            ih (cls e) ((ensure_bin ch (cls e) cs).getD (cls e) dflt) e
              (inv_children_ensure_bin ch (cls e) cs hch (cls e)
                (lt_length_ensure_bin ch (cls e) cs))
          by_cases hr : (removeAux (ch (cls e)) ((ensure_bin ch (cls e) cs).getD (cls e) dflt) e).2.1
          · have hstep := node_set_inv cls ch tot (n - 1) cs (cls e)
              (removeAux (ch (cls e)) ((ensure_bin ch (cls e) cs).getD (cls e) dflt) e).1
              (removeAux (ch (cls e)) ((ensure_bin ch (cls e) cs).getD (cls e) dflt) e).2.2
              htot hch ih1 ih2
            simp only [removeAux, hr, if_true]
            exact ⟨hstep.1, by rw [recalc_node_eq, recalc_node_eq, hstep.2],
              fun hco => by simp at hco⟩
          · have hz : (removeAux (ch (cls e)) ((ensure_bin ch (cls e) cs).getD (cls e) dflt) e).2.2 = 0 :=
              ih3 (by simpa using hr)
            have hd0 : recalc_rates (ch (cls e))
                (removeAux (ch (cls e)) ((ensure_bin ch (cls e) cs).getD (cls e) dflt) e).1
                = recalc_rates (ch (cls e)) ((ensure_bin ch (cls e) cs).getD (cls e) dflt) + 0 := by
              rw [ih2, hz]
            have hstep := node_set_inv cls ch tot n cs (cls e)
              (removeAux (ch (cls e)) ((ensure_bin ch (cls e) cs).getD (cls e) dflt) e).1
              0 htot hch ih1 hd0
            simp only [removeAux, hr, if_false, Bool.false_eq_true]
            refine ⟨by simpa using hstep.1, ?_, by simp⟩
            rw [recalc_node_eq, recalc_node_eq, hstep.2]

theorem applyOp_inv (C : Classifier) (t : CatTree) (op : TreeOp) (h : Inv C t) :
    Inv C (applyOp C t op) := by
  cases op with
  | add e => exact (addAux_inv C t e h).1
  | remove e => exact (removeAux_inv C t e h).1

theorem applyOps_inv (C : Classifier) (ops : List TreeOp) :
    ∀ t : CatTree, Inv C t → Inv C (applyOps C ops t) := by
  induction ops with
  | nil => intro t h; exact h
  | cons op rest ih =>
      intro t h
      exact ih (applyOp C t op) (applyOp_inv C t op h)

theorem Inv_getTotal (C : Classifier) (t : CatTree) (h : Inv C t) :
    getTotal t = recalc_rates C t := by
  cases h with
  | leaf rate tot elems hleaf => simpa [getTotal, recalc_rates] using hleaf
  | node cls ch tot n cs htot hch => simpa [getTotal, recalc_node_eq] using htot

theorem Inv_childSumOk (C : Classifier) : ∀ t : CatTree, Inv C t → childSumOk t := by
  induction C with
  | leafC rate =>
      intro t h
      cases h with
      | leaf rate tot elems hleaf => exact childSumOk.leaf _ _
  | nodeC cls ch ih =>
      intro t h
      cases h with
      | node cls ch tot n cs htot hch =>
          refine childSumOk.node _ _ _ ?_ ?_
          · rw [list_map_sum_eq_range getTotal dflt cs]
            rw [htot]
            exact (Finset.sum_congr rfl fun i hi =>
              Inv_getTotal (ch i) _ (hch i (Finset.mem_range.mp hi))).symm
          · intro c hc
            obtain ⟨i, hi, rfl⟩ := List.mem_iff_getElem.mp hc
            have hg : cs[i] = cs.getD i dflt := (List.getD_eq_getElem cs dflt hi).symm
            rw [hg]
            exact ih i _ (hch i hi)

end cats

namespace cats

theorem addAux_mem_noop (C : Classifier) : ∀ (t : CatTree) (e : ℤ),
    memClassified C t e = true →
    (addAux C t e).2.1 = false ∧ (addAux C t e).2.2 = 0 ∧
    getTotal (addAux C t e).1 = getTotal t ∧ getN (addAux C t e).1 = getN t ∧
    membersOf (addAux C t e).1 = membersOf t := by
  induction C with
  | leafC rate =>
      intro t e h
      cases t with
      | leaf tot elems =>
          have he : e ∈ elems := by simpa [memClassified] using h
          simp [addAux, he, getTotal, getN, membersOf]
      | node tot n cs => simp [memClassified] at h
  | nodeC cls ch ih =>
      intro t e h
      cases t with
      | leaf tot elems => simp [memClassified] at h
      | node tot n cs =>
          have hmem : memClassified (ch (cls e)) (cs.getD (cls e) dflt) e = true := by
            simpa [memClassified] using h
          have hbin : cls e < cs.length := by
            by_contra hcon
            rw [List.getD_eq_default _ _ (by omega), memClassified_dflt] at hmem
            exact absurd hmem (by simp)
          have hsubeq : (ensure_bin ch (cls e) cs).getD (cls e) dflt = cs.getD (cls e) dflt :=
            getD_ensure_bin_lt ch (cls e) cs hbin
          obtain ⟨h1, h2, h3, h4, h5⟩ :=
            ih (cls e) ((ensure_bin ch (cls e) cs).getD (cls e) dflt) e
              (by rw [hsubeq]; exact hmem)
          have hml := membersList_set (ensure_bin ch (cls e) cs) (cls e)
            (addAux (ch (cls e)) ((ensure_bin ch (cls e) cs).getD (cls e) dflt) e).1
            (lt_length_ensure_bin ch (cls e) cs)
          rw [h5] at hml
          have hcancel : membersList ((ensure_bin ch (cls e) cs).set (cls e)
              (addAux (ch (cls e)) ((ensure_bin ch (cls e) cs).getD (cls e) dflt) e).1)
              = membersList (ensure_bin ch (cls e) cs) := add_right_cancel hml
          simp only [addAux, h1, Bool.false_eq_true, if_false]
          refine ⟨by simp, by simp, by simp [getTotal], by simp [getN], ?_⟩
          simp only [membersOf]
          rw [hcancel, membersList_ensure_bin]

theorem removeAux_absent_noop (C : Classifier) : ∀ (t : CatTree) (e : ℤ),
    memClassified C t e = false →
    (removeAux C t e).2.1 = false ∧ (removeAux C t e).2.2 = 0 ∧
    getTotal (removeAux C t e).1 = getTotal t ∧ getN (removeAux C t e).1 = getN t ∧
    membersOf (removeAux C t e).1 = membersOf t := by
  induction C with
  | leafC rate =>
      intro t e h
      cases t with
      | leaf tot elems =>
          have he : e ∉ elems := by simpa [memClassified] using h
          simp [removeAux, he, getTotal, getN, membersOf]
      | node tot n cs => simp [removeAux, getTotal, getN, membersOf]
  | nodeC cls ch ih =>
      intro t e h
      cases t with
      | leaf tot elems => simp [removeAux, getTotal, getN, membersOf]
      | node tot n cs =>
          have hmem : memClassified (ch (cls e)) (cs.getD (cls e) dflt) e = false := by
            simpa [memClassified] using h
          have hsub : memClassified (ch (cls e))
              ((ensure_bin ch (cls e) cs).getD (cls e) dflt) e = false := by
            by_cases hbin : cls e < cs.length
            · rw [getD_ensure_bin_lt ch (cls e) cs hbin]
              exact hmem
            · rw [getD_ensure_bin_ge ch (cls e) cs (by omega) (by omega)]
              exact memClassified_emptyOf (ch (cls e)) e
          obtain ⟨h1, h2, h3, h4, h5⟩ :=
            ih (cls e) ((ensure_bin ch (cls e) cs).getD (cls e) dflt) e hsub
          have hml := membersList_set (ensure_bin ch (cls e) cs) (cls e)
            (removeAux (ch (cls e)) ((ensure_bin ch (cls e) cs).getD (cls e) dflt) e).1
            (lt_length_ensure_bin ch (cls e) cs)
          rw [h5] at hml
          have hcancel : membersList ((ensure_bin ch (cls e) cs).set (cls e)
              (removeAux (ch (cls e)) ((ensure_bin ch (cls e) cs).getD (cls e) dflt) e).1)
              = membersList (ensure_bin ch (cls e) cs) := add_right_cancel hml
          simp only [removeAux, h1, Bool.false_eq_true, if_false]
          refine ⟨by simp, by simp, by simp [getTotal], by simp [getN], ?_⟩
          simp only [membersOf]
          rw [hcancel, membersList_ensure_bin]

theorem random_weighted_bin_go_cases :
    ∀ (rates : List ℚ) (num : ℚ) (i fb : ℕ),
    random_weighted_bin_go num rates i fb = fb ∨
    random_weighted_bin_go num rates i fb < i + rates.length := by
  intro rates
  induction rates with
  | nil => intro num i fb; left; rfl
  | cons r rest ih =>
      intro num i fb
      simp only [random_weighted_bin_go]
      split
      · right
        simp only [List.length_cons]
        omega
      · rcases ih (num - r) (i + 1) fb with h | h
        · left; exact h
        · right
          simp only [List.length_cons]
          omega

theorem random_weighted_bin_go_overflow :
    ∀ (rates : List ℚ) (num : ℚ) (i fb : ℕ),
    (∀ r ∈ rates, 0 ≤ r) → rates.sum < num →
    random_weighted_bin_go num rates i fb = fb := by
  intro rates
  induction rates with
  | nil => intro num i fb _ _; rfl
  | cons r rest ih =>
      intro num i fb hpos hsum
      have hrest : 0 ≤ rest.sum :=
        List.sum_nonneg fun a ha => hpos a (by simp [ha])
      have hr : 0 ≤ r := hpos r (by simp)
      simp only [List.sum_cons] at hsum
      have hgt : ¬ num - r ≤ 0 := by linarith
      simp only [random_weighted_bin_go, if_neg hgt]
      exact ih (num - r) (i + 1) fb (fun a ha => hpos a (by simp [ha])) (by linarith)

end cats

/-! Claim theorems. -/

namespace cats

/-- C1: starting from any well-formed rate tree, after any sequence of add
and remove operations every internal node's cached total_rate equals the sum
of its children's cached total_rate exactly (the arithmetic here is exact
rational arithmetic, the claim's exact-arithmetic reading), and consequently
the root's cached total_rate equals the recomputed sum over the leaves of the
per-member rate times the leaf size. -/
theorem rate_tree_totals_invariant (C : Classifier) (ops : List TreeOp)
    (t : CatTree) (h : Inv C t) :
    Inv C (applyOps C ops t) ∧ childSumOk (applyOps C ops t) ∧
    getTotal (applyOps C ops t) = recalc_rates C (applyOps C ops t) := by
  have hinv := applyOps_inv C ops t h
  exact ⟨hinv, Inv_childSumOk C _ hinv, Inv_getTotal C _ hinv⟩

/-- Witness for C1: a concrete run of three adds and one remove on the
two-bin parity tree, starting from the empty root. -/
theorem rate_tree_totals_invariant_witness :
    Inv Cex (applyOps Cex [.add 0, .add 1, .add 2, .remove 0] tex) ∧
    childSumOk (applyOps Cex [.add 0, .add 1, .add 2, .remove 0] tex) ∧
    getTotal (applyOps Cex [.add 0, .add 1, .add 2, .remove 0] tex)
      = recalc_rates Cex (applyOps Cex [.add 0, .add 1, .add 2, .remove 0] tex) :=
  rate_tree_totals_invariant Cex [.add 0, .add 1, .add 2, .remove 0] tex
    (Inv.node _ _ 0 0 [] (by simp [childRecalcSum]) (fun i hi => absurd hi (by simp)))

/-- C10: a failed mutation is an atomic no-op.  Adding an element already
present in its classified bin returns false and leaves the cached total_rate,
the n_elems counter and the stored members unchanged; removing an element
absent from its classified bin likewise returns false and changes nothing. -/
theorem failed_tree_mutations_are_noops (C : Classifier) (t : CatTree) (e : ℤ) :
    (memClassified C t e = true →
      (addAux C t e).2.1 = false ∧
      getTotal (addAux C t e).1 = getTotal t ∧
      getN (addAux C t e).1 = getN t ∧
      membersOf (addAux C t e).1 = membersOf t) ∧
    (memClassified C t e = false →
      (removeAux C t e).2.1 = false ∧
      getTotal (removeAux C t e).1 = getTotal t ∧
      getN (removeAux C t e).1 = getN t ∧
      membersOf (removeAux C t e).1 = membersOf t) :=
  ⟨fun h =>
    ⟨(addAux_mem_noop C t e h).1, (addAux_mem_noop C t e h).2.2.1,
     (addAux_mem_noop C t e h).2.2.2.1, (addAux_mem_noop C t e h).2.2.2.2⟩,
   fun h =>
    ⟨(removeAux_absent_noop C t e h).1, (removeAux_absent_noop C t e h).2.2.1,
     (removeAux_absent_noop C t e h).2.2.2.1, (removeAux_absent_noop C t e h).2.2.2.2⟩⟩

/-- Witness for C10: on the concrete one-member tree, re-adding the stored
element 0 fails and changes nothing, and removing the absent element 5 fails
and changes nothing. -/
theorem failed_tree_mutations_are_noops_witness :
    ((addAux Cex tpresent 0).2.1 = false ∧
     getTotal (addAux Cex tpresent 0).1 = getTotal tpresent ∧
     getN (addAux Cex tpresent 0).1 = getN tpresent ∧
     membersOf (addAux Cex tpresent 0).1 = membersOf tpresent) ∧
    ((removeAux Cex tpresent 5).2.1 = false ∧
     getTotal (removeAux Cex tpresent 5).1 = getTotal tpresent ∧
     getN (removeAux Cex tpresent 5).1 = getN tpresent ∧
     membersOf (removeAux Cex tpresent 5).1 = membersOf tpresent) :=
  ⟨(failed_tree_mutations_are_noops Cex tpresent 0).1 (by decide),
   (failed_tree_mutations_are_noops Cex tpresent 5).2 (by decide)⟩

/-- C5: on a node with at least one child, the weighted-bin selection always
yields a valid child index, and whenever the drawn value exceeds the
accumulated sum of the children's (non-negative) total rates — the
floating-rounding overshoot — the last child is selected. -/
theorem random_weighted_bin_spec (num : ℚ) (rates : List ℚ) (hne : rates ≠ []) :
    random_weighted_bin num rates < rates.length ∧
    ((∀ r ∈ rates, 0 ≤ r) → rates.sum < num →
      random_weighted_bin num rates = rates.length - 1) := by
  have hlen : 0 < rates.length := List.length_pos.mpr hne
  constructor
  · unfold random_weighted_bin
    rcases random_weighted_bin_go_cases rates num 0 (rates.length - 1) with h | h
    · rw [h]; omega
    · omega
  · intro h1 h2
    unfold random_weighted_bin
    exact random_weighted_bin_go_overflow rates num 0 _ h1 h2

/-- Witness for C5: with child rates 1 and 2 and the overshooting draw 10,
the selection lands on the last child, index 1 of 2. -/
theorem random_weighted_bin_spec_witness :
    random_weighted_bin 10 [1, 2] < 2 ∧ random_weighted_bin 10 [1, 2] = 1 :=
  ⟨(random_weighted_bin_spec 10 [1, 2] (by simp)).1,
   (random_weighted_bin_spec 10 [1, 2] (by simp)).2 (by decide) (by norm_num)⟩

/-- C4 (evaluation at the failing input): random_uniform_bin subtracts the
bin count, not the child member counts, so on a two-bin node with member
counts 1 and 3 (four members, draws 0..3) it selects bin 0 on three of the
four equally likely draws although bin 0 holds one member of four; and on a
one-bin node holding three members the draw 2 runs the loop off the end (the
failed assertion, modelled as none) instead of selecting the only bin. -/
theorem random_uniform_bin_ignores_member_counts :
    ((List.range 4).filter (fun num => random_uniform_bin (num : ℤ) 2 = some 0)).length = 3 ∧
    ((List.range 4).filter (fun num => random_uniform_bin (num : ℤ) 2 = some 1)).length = 1 ∧
    random_uniform_bin 2 1 = none := by
  decide

end cats

namespace tweets

/-- C3: the aging checker accepts (true) exactly when simulated time has not
passed the tweet's next rebin time; otherwise it increments the age bin and
returns false, either removing the tweet when the incremented bin runs past
the configured bin count, or setting the next rebin time from the new bin's
threshold and replacing the tweet's rate with the recomputed one. -/
theorem element_checker_check_spec (time : ℚ) (n_bins : ℕ)
    (get_cat_threshold get_rate : ℕ → ℚ) (t : Tweet) :
    (time ≤ t.retweet_next_rebin_time →
      ElementChecker_check time n_bins get_cat_threshold get_rate t = (true, .keep)) ∧
    (time > t.retweet_next_rebin_time → t.retweet_time_bin + 1 ≥ n_bins →
      ElementChecker_check time n_bins get_cat_threshold get_rate t = (false, .removed)) ∧
    (time > t.retweet_next_rebin_time → t.retweet_time_bin + 1 < n_bins →
      ElementChecker_check time n_bins get_cat_threshold get_rate t =
        (false, .rebinned
          { creation_time := t.creation_time
            retweet_time_bin := t.retweet_time_bin + 1
            retweet_next_rebin_time :=
              t.creation_time + get_cat_threshold (t.retweet_time_bin + 1) }
          (get_rate (t.retweet_time_bin + 1)))) := by
  refine ⟨?_, ?_, ?_⟩
  · intro h
    simp [ElementChecker_check, not_lt.mpr h]
  · intro h1 h2
    simp [ElementChecker_check, h1, h2]
  · intro h1 h2
    simp [ElementChecker_check, h1, Nat.not_le.mpr h2]

/-- Witness for C3: all three behaviours at concrete inputs with four bins,
constant threshold 7 and constant recomputed rate 9. -/
theorem element_checker_check_spec_witness :
    ElementChecker_check 5 4 (fun _ => (7 : ℚ)) (fun _ => (9 : ℚ)) ⟨0, 0, 10⟩
      = (true, .keep) ∧
    ElementChecker_check 5 4 (fun _ => (7 : ℚ)) (fun _ => (9 : ℚ)) ⟨0, 3, 2⟩
      = (false, .removed) ∧
    ElementChecker_check 5 4 (fun _ => (7 : ℚ)) (fun _ => (9 : ℚ)) ⟨0, 1, 2⟩
      = (false, .rebinned ⟨0, 2, 0 + 7⟩ 9) :=
  ⟨(element_checker_check_spec 5 4 (fun _ => (7 : ℚ)) (fun _ => (9 : ℚ)) ⟨0, 0, 10⟩).1
      (by norm_num),
   (element_checker_check_spec 5 4 (fun _ => (7 : ℚ)) (fun _ => (9 : ℚ)) ⟨0, 3, 2⟩).2.1
      (by norm_num) (by norm_num),
   (element_checker_check_spec 5 4 (fun _ => (7 : ℚ)) (fun _ => (9 : ℚ)) ⟨0, 1, 2⟩).2.2
      (by norm_num) (by norm_num)⟩

end tweets

namespace analyzer

theorem add_if_possible_fail (v : MPVec) (x : ℕ) (h : (add_if_possible v x).2 = false) :
    (add_if_possible v x).1 = v := by
  by_cases h1 : x ∈ v.elems
  · simp [add_if_possible, h1]
  · by_cases h2 : v.elems.length < v.capacity
    · exfalso
      simp [add_if_possible, h1, h2] at h
    · simp [add_if_possible, h1, h2]

theorem handle_follow_fail (st : AState) (a t : ℕ)
    (h : (handle_follow st a t).2 = false) : (handle_follow st a t).1 = st := by
  have hb : (add_if_possible (st.agents a).follow_set t).2 = false := by
    by_contra hcon
    have hr : (add_if_possible (st.agents a).follow_set t).2 = true := by
      simpa using hcon
    unfold handle_follow at h
    simp [hr] at h
  unfold handle_follow
  simp only [hb, Bool.false_eq_true, if_false]
  rw [add_if_possible_fail (st.agents a).follow_set t hb]
  show updAgent st a (st.agents a) = st
  unfold updAgent
  rw [Function.update_eq_self]

theorem action_follow_entity_rejected (st : AState) (entity : ℕ) (sel : ℤ)
    (h : sel = (entity : ℤ) ∨ sel = -1 ∨ (handle_follow st entity sel.toNat).2 = false) :
    action_follow_entity st entity sel = st := by
  unfold action_follow_entity
  by_cases hg : (entity : ℤ) ≠ sel ∧ sel ≠ -1
  · rcases h with h | h | h
    · exact absurd h.symm hg.1
    · exact absurd h hg.2
    · rw [if_pos hg]
      simp only [h, Bool.false_eq_true, if_false]
      exact handle_follow_fail st entity sel.toNat h
  · rw [if_neg hg]

/-- C9: a follow whose selection is rejected — a self-selection, the
no-selection marker -1 from an empty category, or an insertion that
handle_follow refuses (duplicate or exhausted buffer) — is a normal outcome:
the network and n_follows are untouched, no error is raised (the embedded
step is total), and the step still advances the clock and the step counter. -/
theorem follow_rejection_is_noop (st : AState) (entity : ℕ) (sel : ℤ) (dt : ℚ)
    (h : sel = (entity : ℤ) ∨ sel = -1 ∨ (handle_follow st entity sel.toNat).2 = false) :
    (follow_step st entity sel dt).agents = st.agents ∧
    (follow_step st entity sel dt).n_follows = st.n_follows ∧
    (follow_step st entity sel dt).n_steps = st.n_steps + 1 ∧
    (follow_step st entity sel dt).time = st.time + dt := by
  unfold follow_step
  rw [action_follow_entity_rejected st entity sel h]
  exact ⟨rfl, rfl, rfl, rfl⟩

/-- Witness for C9: a concrete self-follow rejection in the fresh two-agent
network leaves the network and n_follows alone while the step completes. -/
theorem follow_rejection_is_noop_witness :
    (follow_step stAB 0 0 1).agents = stAB.agents ∧
    (follow_step stAB 0 0 1).n_follows = stAB.n_follows ∧
    (follow_step stAB 0 0 1).n_steps = stAB.n_steps + 1 ∧
    (follow_step stAB 0 0 1).time = stAB.time + 1 :=
  follow_rejection_is_noop stAB 0 0 1 (Or.inl rfl)

/-- C2 (evaluation at the failing input): when agent 1's preallocated
follower buffer is exhausted but agent 0's follow buffer is not,
handle_follow 0 1 still reports success and produces a state in which 1 is in
the follow set of 0 while 0 is not in the follower set of 1 — the symmetry
invariant fails, contradicting handle_follow's stated contract. -/
theorem handle_follow_breaks_symmetry :
    (handle_follow stCap 0 1).2 = true ∧
    1 ∈ ((handle_follow stCap 0 1).1.agents 0).follow_set.elems ∧
    0 ∉ ((handle_follow stCap 0 1).1.agents 1).follower_set.elems := by
  decide

/-- C6 (evaluation at the failing input): forcing the primary follow 0 → 1 in
the fresh two-agent network leaves n_follows at 1 and synthesizes no
reciprocal follow 1 → 0, because the step never invokes action_followback;
invoking the dead action_followback routine by hand would have produced
exactly the claimed state with n_follows = 2. -/
theorem follow_step_never_followback :
    (follow_step stAB 0 1 1).n_follows = 1 ∧
    1 ∈ ((follow_step stAB 0 1 1).agents 0).follow_set.elems ∧
    0 ∉ ((follow_step stAB 0 1 1).agents 1).follow_set.elems ∧
    (action_followback (follow_step stAB 0 1 1) 0 1).n_follows = 2 ∧
    0 ∈ ((action_followback (follow_step stAB 0 1 1) 0 1).agents 1).follow_set.elems := by
  decide

/-- C7 (evaluation at the failing input): agent 0 follows agent 1 and is
followed by agent 2; a successful retweet by agent 0 pushes the ring-buffer
record to agent 1 (a followee) and not to agent 2 (the follower), so the
audience is the reactor's follow set, not its follower set. -/
theorem action_retweet_pushes_to_followees :
    ((action_retweet stRT 0 100 true 0).agents 1).retweets = [⟨1, 100⟩] ∧
    ((action_retweet stRT 0 100 true 0).agents 2).retweets = [] ∧
    1 ∈ (stRT.agents 0).follow_set.elems ∧
    2 ∈ (stRT.agents 0).follower_set.elems ∧
    (action_retweet stRT 0 100 true 0).n_retweets = 1 := by
  decide

end analyzer

namespace kmcloop

/-- C8 (evaluation at the failing input): with the agent count at
max_entities while simulated time is far below max_time and no abort was
requested, the while-condition is already false, so the loop performs no
further steps of any event class — the run returns its input unchanged even
though the step body is nontrivial.  The add rate is never forced to 0 with
other events continuing; the loop simply exits. -/
theorem loop_exits_at_max_entities :
    run_network_simulation 1000 100 demo_step 50 ⟨0, 100, 0, 0⟩ = ⟨0, 100, 0, 0⟩ ∧
    (0 : ℚ) < 1000 ∧
    (⟨0, 100, 0, 0⟩ : SimState).ctrl_c_attempts = 0 ∧
    (demo_step ⟨0, 100, 0, 0⟩).n_steps ≠ (⟨0, 100, 0, 0⟩ : SimState).n_steps := by
  decide

end kmcloop
